import Mathlib

/-!
Verification of the SuperSiteHero database-migration tooling.

This file gives a shallow embedding of the three core components of the
repository and proves (or refutes) the specified properties against it:

* the Splitter (`scripts/split-migrations.py`): scans a combined SQL
  document line by line for marker lines of the regex form
  `-- Migration: (\d+)_(.+?)\.sql` (matched with Python `re.match`, i.e.
  anchored at the start of the line only), accumulates the lines of each
  unit in a buffer, and stores each finished unit in an insertion-ordered
  dictionary keyed by the sequence number zero-padded to width 3
  (Python `f-string` format `03d`);
* the Engine (`run-migrations.py`, function `run_migrations`): reads each
  migration file in text mode (UTF-8 with universal-newline translation),
  executes the resulting text one file at a time on an autocommitting
  connection, printing OK per unit and aborting on the first failure by
  re-raising, and closes the connection only on the all-success path;
* the ScriptStore (`run-migrations.py`, the `migration_files` list):
  `glob` over the `migrations` directory with the pattern `???_*.sql`
  (each `?` matches an arbitrary character), minus the reserved name
  `COMBINED_ALL_MIGRATIONS.sql`, sorted with Python `sorted`, which on
  these paths is an ordinal (code-point) lexicographic sort.

Strings are modelled as `List Char` (Python `str` is a sequence of code
points).  Python `\d` and `int` are modelled at ASCII digits, which is
exact on every input the repository handles.  All definitions are
executable so that concrete runs can be checked by `decide`.
-/

/-! ## Decimal digit strings (Python `03d` formatting and `int` parsing) -/

/-- Little-endian list of the decimal digits of `n` (empty for `0`), with
explicit fuel so that the definition is structural and kernel-reducible;
`fuel = n` always suffices because `n / 10 < n` for `n > 0`. -/
def toDigitsRevAux : Nat → Nat → List Nat
  | _, 0 => []
  | 0, _ + 1 => []
  | fuel + 1, n + 1 => ((n + 1) % 10) :: toDigitsRevAux fuel ((n + 1) / 10)

/-- Little-endian decimal digits of `n` (empty for `0`). -/
def toDigitsRev (n : Nat) : List Nat := toDigitsRevAux n n

/-- Value of a little-endian digit list; inverse of `toDigitsRev`. -/
def fromRev : List Nat → Nat
  | [] => 0
  | d :: t => d + 10 * fromRev t

/-- Character for the decimal digit `d` (`0 ↦ '0'`, …, `9 ↦ '9'`). -/
def digitChar (d : Nat) : Char := Char.ofNat (48 + d)

/-- Decimal-numeral characters of `n`, most significant first; the digit
string Python produces when formatting the integer `n`. -/
def natChars (n : Nat) : List Char := (toDigitsRev n).reverse.map digitChar

/-- Model of the Python format expression that zero-pads `n` to width 3
(format spec `03d`): the dictionary key and output-filename numeral the
Splitter uses for sequence number `n`. -/
def migKey (n : Nat) : List Char :=
  List.replicate (3 - (natChars n).length) '0' ++ natChars n

/-- Model of Python `int` applied to a string of decimal digits. -/
def digitsVal (ds : List Char) : Nat :=
  ds.foldl (fun a c => 10 * a + (c.toNat - 48)) 0

/-! ## Lines of a document: Python `str.split` on a newline, and `str.join` -/

/-- Model of Python `content.split` at the newline character: `[]` maps to
one empty line, and every newline separates two (possibly empty) lines. -/
def splitLines : List Char → List (List Char)
  | [] => [[]]
  | c :: rest =>
    if c = '\n' then [] :: splitLines rest
    else
      match splitLines rest with
      | [] => [[c]]
      | l :: ls => (c :: l) :: ls

/-- Model of Python joining a list of strings with a newline separator. -/
def joinLines : List (List Char) → List Char
  | [] => []
  | [l] => l
  | l :: l2 :: ls => l ++ '\n' :: joinLines (l2 :: ls)

/-! ## The Splitter marker regex

The source matches each line with
`re.match(r'-- Migration: (\d+)_(.+?)\.sql', line)`: the literal text
`-- Migration: `, a maximal nonempty digit run (group 1), an underscore,
a lazy nonempty group 2, and the literal `.sql`, anchored at the start of
the line but not at its end. -/

/-- Literal head of a marker line. -/
def markerLit : List Char := "-- Migration: ".data

/-- Literal `.sql` required by the marker regex after group 2. -/
def sqlLit : List Char := ['.', 's', 'q', 'l']

/-- Strips the literal `lit` from the front of `s`; `none` when `s` does
not start with `lit`. -/
def dropLit : List Char → List Char → Option (List Char)
  | [], s => some s
  | _ :: _, [] => none
  | l :: ls, c :: cs => if c = l then dropLit ls cs else none

/-- Splits off the maximal leading run of ASCII digits (regex `\d+`,
greedy; Python `\d` restricted to ASCII, exact for this repository). -/
def takeDigits : List Char → List Char × List Char
  | [] => ([], [])
  | c :: rest =>
    if c.isDigit then
      match takeDigits rest with
      | (ds, r) => (c :: ds, r)
    else ([], c :: rest)

/-- First split of `s` as `a ++ ".sql" ++ b` (leftmost occurrence of the
literal `.sql`); `none` when `.sql` does not occur in `s`. -/
def splitFirstSql : List Char → Option (List Char × List Char)
  | [] => none
  | c :: rest =>
    match dropLit sqlLit (c :: rest) with
    | some tl => some ([], tl)
    | none =>
      match splitFirstSql rest with
      | some p => some (c :: p.1, p.2)
      | none => none

/-- Lazy match of `(.+?)\.sql`: the shortest nonempty group followed by
the literal `.sql`, returning the group and the text after `.sql`. -/
def nameSql : List Char → Option (List Char × List Char)
  | [] => none
  | c :: rest =>
    match splitFirstSql rest with
    | some p => some (c :: p.1, p.2)
    | none => none

/-- Model of `re.match(r'-- Migration: (\d+)_(.+?)\.sql', line)` together
with the extraction `(int(m.group(1)), m.group(2))` the Splitter performs:
`some (sequence, name)` when the line starts with a marker (text after the
`.sql` is allowed, exactly as with Python `re.match`), else `none`. -/
def parseMarker (line : List Char) : Option (Nat × List Char) :=
  match dropLit markerLit line with
  | none => none
  | some s1 =>
    match takeDigits s1 with
    | (ds, s2) =>
      if ds = [] then none
      else
        match s2 with
        | c :: s3 =>
          if c = '_' then
            match nameSql s3 with
            | some p => some (digitsVal ds, p.1)
            | none => none
          else none
        | [] => none

/-! ## The Splitter state machine (`scripts/split-migrations.py`) -/

/-- Value stored in the Splitter dictionary for one unit: the `name`
captured from the marker and the accumulated `content` (the joined
buffer). -/
structure MigEntry where
  name : List Char
  content : List Char
deriving DecidableEq

/-- Loop state of the Splitter: the dictionary built so far (`migrations`,
as an insertion-ordered association list, matching a Python dict), the
`(current_number, current_name)` pair of the open unit if any, and the
line `buffer`. -/
structure SplitState where
  migrations : List (List Char × MigEntry)
  current : Option (Nat × List Char)
  buffer : List (List Char)

/-- Python dictionary assignment on an insertion-ordered association
list: overwrite in place when the key exists, else append. -/
def insertAL (k : List Char) (v : MigEntry) :
    List (List Char × MigEntry) → List (List Char × MigEntry)
  | [] => [(k, v)]
  | (k2, v2) :: rest => if k2 = k then (k, v) :: rest else (k2, v2) :: insertAL k v rest

/-- Flushes the currently open unit, if any, into the dictionary under
the zero-padded key — the `Save previous migration` / `Save last
migration` blocks of the source. -/
def finalize (st : SplitState) : List (List Char × MigEntry) :=
  match st.current with
  | some p => insertAL (migKey p.1) ⟨p.2, joinLines st.buffer⟩ st.migrations
  | none => st.migrations

/-- One iteration of the Splitter loop body on one line: a marker line
flushes the open unit and opens a new one whose buffer holds the marker
line itself; any other line is appended to the buffer. -/
def stepLine (st : SplitState) (line : List Char) : SplitState :=
  match parseMarker line with
  | some p => ⟨finalize st, some p, [line]⟩
  | none => ⟨st.migrations, st.current, st.buffer ++ [line]⟩

/-- Initial Splitter state: empty dictionary, no open unit, empty buffer. -/
def initState : SplitState := ⟨[], none, []⟩

/-- The Splitter over a list of lines: fold the loop body, then flush the
last open unit. -/
def migrationsOf (lines : List (List Char)) : List (List Char × MigEntry) :=
  finalize (lines.foldl stepLine initState)

/-- Error kind the specification assigns to a combined document without
any marker; the source never raises it. -/
inductive SplitError
  | emptyInput
deriving DecidableEq

/-- Outcome of one Splitter invocation: the produced units, or an error. -/
inductive SplitOutcome
  | ok (units : List (List Char × MigEntry))
  | error (e : SplitError)
deriving DecidableEq

/-- The whole Splitter on the text of a combined document: split into
lines, run the line scan, and return the dictionary; the source has no
failing path on any input text. -/
def split_migrations (content : List Char) : SplitOutcome :=
  .ok (migrationsOf (splitLines content))

/-- Output filename the Splitter writes a unit to: the Python f-string
joining the zero-padded key, an underscore, the name, and `.sql`. -/
def outFilename (k : List Char) (e : MigEntry) : List Char :=
  k ++ '_' :: (e.name ++ sqlLit)

/-- Predicate: none of the lines is a marker line. -/
def noMarkers (ls : List (List Char)) : Prop :=
  ∀ l ∈ ls, parseMarker l = none

instance (ls : List (List Char)) : Decidable (noMarkers ls) :=
  List.decidableBAll _ ls

/-- Decomposition of an emitted unit inside the flushed part of the
document: its content is a marker line plus the following non-marker
lines, and the line right after the segment is again a marker. -/
def SegMarked (lines : List (List Char)) (k : List Char) (e : MigEntry) : Prop :=
  ∃ pre mkr mid post n,
    lines = pre ++ mkr :: (mid ++ post) ∧
    parseMarker mkr = some (n, e.name) ∧
    k = migKey n ∧
    noMarkers mid ∧
    (∃ l2 t2, post = l2 :: t2 ∧ (parseMarker l2).isSome = true) ∧
    e.content = joinLines (mkr :: mid)

/-- Decomposition of an emitted unit inside the whole document: its
content is a marker line plus every following line up to, exclusively,
the next marker line or the end of the input. -/
def SegAt (lines : List (List Char)) (k : List Char) (e : MigEntry) : Prop :=
  ∃ pre mkr mid post n,
    lines = pre ++ mkr :: (mid ++ post) ∧
    parseMarker mkr = some (n, e.name) ∧
    k = migKey n ∧
    noMarkers mid ∧
    (post = [] ∨ ∃ l2 t2, post = l2 :: t2 ∧ (parseMarker l2).isSome = true) ∧
    e.content = joinLines (mkr :: mid)

/-- Invariant of the Splitter loop after consuming the prefix `P` of the
input: every stored unit is a marker-terminated segment of `P`, and the
open unit, if any, has the buffer `marker :: non-marker lines` forming a
suffix of `P`; before the first marker the dictionary is empty. -/
def InvState (P : List (List Char)) (st : SplitState) : Prop :=
  (∀ k e, (k, e) ∈ st.migrations → SegMarked P k e) ∧
  (match st.current with
   | some p =>
     ∃ pre mkr mid, st.buffer = mkr :: mid ∧ P = pre ++ st.buffer ∧
       parseMarker mkr = some (p.1, p.2) ∧ noMarkers mid
   | none => st.migrations = [])

/-- Abstract unit for the round-trip statement: a sequence number, a
name, and the full body text. -/
structure MigUnit where
  seq : Nat
  name : List Char
  body : List Char
deriving DecidableEq

/-- Well-formed unit for the round-trip: its body starts with its own
marker line (a line the Splitter parses to exactly this sequence and
name) and contains no further marker line. -/
def wfUnit (u : MigUnit) : Prop :=
  parseMarker ((splitLines u.body).headI) = some (u.seq, u.name) ∧
  noMarkers ((splitLines u.body).tail)

instance (u : MigUnit) : Decidable (wfUnit u) := by
  unfold wfUnit
  infer_instance

/-- Dictionary entry the Splitter is expected to reproduce for a unit. -/
def unitEntry (u : MigUnit) : List Char × MigEntry :=
  (migKey u.seq, ⟨u.name, u.body⟩)

/-! ## The Engine (`run-migrations.py`, `run_migrations`) -/

/-- Model of reading a file in Python text mode: universal-newline
translation replaces each CRLF pair and each lone CR by LF; no other
byte is changed, nothing is trimmed. -/
def pyRead : List Char → List Char
  | [] => []
  | [c] => if c = '\r' then ['\n'] else [c]
  | c :: c2 :: rest =>
    if c = '\r' then
      if c2 = '\n' then '\n' :: pyRead rest
      else '\n' :: pyRead (c2 :: rest)
    else c :: pyRead (c2 :: rest)

/-- One migration file as discovered on disk: its filename and its raw
contents. -/
structure MigFile where
  name : List Char
  contents : List Char
deriving DecidableEq

/-- Per-unit status the run reports. -/
inductive Status
  | ok
  | failed
deriving DecidableEq

/-- One line of the run report: filename (which carries sequence and
name), status, and the failure cause when failed. -/
structure Record where
  name : List Char
  status : Status
  cause : Option (List Char)
deriving DecidableEq

/-- Result of the Engine loop: the report records in execution order, the
scripts committed on the database, and the surfaced failure if any. -/
structure RunResult where
  records : List Record
  committed : List (List Char)
  failure : Option (List Char × List Char)
deriving DecidableEq

/-- Text of a unit as the Engine passes it to `cursor.execute`: the file
contents after the text-mode read. -/
def bodyOf (f : MigFile) : List Char := pyRead f.contents

/-- The Engine loop over the ordered migration files.  `ex committed
body` is the database capability: `none` means the script executed (and,
the connection being in autocommit mode, is committed immediately),
`some cause` means it raised.  On failure the loop records the unit as
failed with its cause and re-raises — no later unit is attempted and
nothing is rolled back. -/
def execUnits (ex : List (List Char) → List Char → Option (List Char))
    (committed : List (List Char)) : List MigFile → RunResult
  | [] => ⟨[], committed, none⟩
  | f :: rest =>
    match ex committed (bodyOf f) with
    | none =>
      match execUnits ex (committed ++ [bodyOf f]) rest with
      | r => ⟨⟨f.name, .ok, none⟩ :: r.records, r.committed, r.failure⟩
    | some cause => ⟨[⟨f.name, .failed, some cause⟩], committed, some (f.name, cause)⟩

/-- Database state after the first `k` units of `files` succeeded on top
of the previously committed scripts `c0`. -/
def stateAt (c0 : List (List Char)) (files : List MigFile) (k : Nat) : List (List Char) :=
  c0 ++ (files.take k).map bodyOf

/-- Exit-path summary of one `run_migrations` invocation: whether a
connection was opened, whether it was explicitly closed before the
process ended, the Engine result when the loop ran, and the process exit
code. -/
structure RunOutcome where
  connOpened : Bool
  connClosed : Bool
  result : Option RunResult
  exitCode : Nat
deriving DecidableEq

/-- The whole `run_migrations` control flow around the Engine loop: exit
early when no migration files were found; exit when the connection
attempt raises (`connectErr`); otherwise run the loop, and — exactly as
in the source, where `cursor.close()` and `conn.close()` are executed
only after all units succeeded and no `finally` block exists — close the
connection on the all-success path only, while a unit failure re-raises
into the `except` clauses, which `sys.exit(1)` without closing. -/
def run_migrations (connectErr : Option (List Char))
    (ex : List (List Char) → List Char → Option (List Char))
    (files : List MigFile) : RunOutcome :=
  if files = [] then ⟨false, false, none, 1⟩
  else
    match connectErr with
    | some _ => ⟨false, false, none, 1⟩
    | none =>
      match execUnits ex [] files with
      | r =>
        match r.failure with
        | none => ⟨true, true, some r, 0⟩
        | some _ => ⟨true, false, some r, 1⟩

/-! ## The ScriptStore (`run-migrations.py`, discovery of migration files) -/

/-- Python ordinal string comparison (`str.__lt__` weakened to `≤`):
lexicographic on code points. -/
def lexLe : List Char → List Char → Bool
  | [], _ => true
  | _ :: _, [] => false
  | a :: as, b :: bs =>
    if a.toNat = b.toNat then lexLe as bs
    else decide (a.toNat < b.toNat)

/-- Insert into a lexicographically sorted list, keeping it sorted. -/
def insertSorted (x : List Char) : List (List Char) → List (List Char)
  | [] => [x]
  | y :: ys => if lexLe x y then x :: y :: ys else y :: insertSorted x ys

/-- Model of Python `sorted` on the filename lists at hand: `lexLe` is a
total order that is antisymmetric on distinct strings, so every correct
sort — in particular Python stable mergesort and this insertion sort —
produces the same output. -/
def sortLex (l : List (List Char)) : List (List Char) := l.foldr insertSorted []

/-- Model of the glob pattern `???_*.sql` used for discovery: three
arbitrary characters (each `?` of a glob matches any character, digit or
not), an underscore, then anything ending in the literal `.sql`. -/
def globMatch : List Char → Bool
  | _ :: _ :: _ :: d :: rest => decide (d = '_') && sqlLit.isSuffixOf rest
  | _ => false

/-- The reserved combined-aggregate filename the discovery excludes. -/
def COMBINED_NAME : List Char := "COMBINED_ALL_MIGRATIONS.sql".data

/-- Does the filename start with exactly three ASCII digits and an
underscore — the numeric-prefix form the specification claims for every
discovered file? -/
def hasNumericSeq : List Char → Bool
  | a :: b :: c :: d :: _ => a.isDigit && b.isDigit && c.isDigit && decide (d = '_')
  | _ => false

/-- Sequence number parsed from the three-digit prefix of a filename. -/
def seqOf (f : List Char) : Nat := digitsVal (f.take 3)

/-- Model of the discovery in `run_migrations`: the list comprehension
over `migrations_dir.glob` with the combined file removed, passed to
`sorted`. -/
def migration_files (dirFiles : List (List Char)) : List (List Char) :=
  sortLex ((dirFiles.filter globMatch).filter (fun f => decide (f ≠ COMBINED_NAME)))

/-! ## Lemmas about decimal digit strings -/

theorem toDigitsRevAux_congr : ∀ f1 f2 n, n ≤ f1 → n ≤ f2 →
    toDigitsRevAux f1 n = toDigitsRevAux f2 n := by
  intro f1
  induction f1 with
  | zero =>
    intro f2 n h1 _
    match n, f2 with
    | 0, 0 => rfl
    | 0, _ + 1 => rfl
  | succ a ih =>
    intro f2 n h1 h2
    match n, f2 with
    | 0, 0 => rfl
    | 0, _ + 1 => rfl
    | m + 1, b + 1 =>
      simp only [toDigitsRevAux]
      have hd : (m + 1) / 10 ≤ a := by
        have := Nat.div_lt_self (Nat.succ_pos m) (show 1 < 10 by omega)
        omega
      have hd2 : (m + 1) / 10 ≤ b := by
        have := Nat.div_lt_self (Nat.succ_pos m) (show 1 < 10 by omega)
        omega
      rw [ih b ((m + 1) / 10) hd hd2]

theorem toDigitsRev_succ (n : Nat) :
    toDigitsRev (n + 1) = ((n + 1) % 10) :: toDigitsRev ((n + 1) / 10) := by
  show toDigitsRevAux (n + 1) (n + 1) = _
  simp only [toDigitsRevAux]
  rw [toDigitsRevAux_congr n ((n + 1) / 10) ((n + 1) / 10)]
  · rfl
  · have := Nat.div_lt_self (Nat.succ_pos n) (show 1 < 10 by omega)
    omega
  · exact Nat.le_refl _

theorem fromRev_toDigitsRev (n : Nat) : fromRev (toDigitsRev n) = n := by
  induction n using Nat.strong_induction_on with
  | _ n ih =>
    match n with
    | 0 => rfl
    | m + 1 =>
      rw [toDigitsRev_succ, fromRev,
        ih ((m + 1) / 10) (Nat.div_lt_self (Nat.succ_pos m) (by omega))]
      omega

theorem toDigitsRev_lt_ten (n : Nat) : ∀ d ∈ toDigitsRev n, d < 10 := by
  induction n using Nat.strong_induction_on with
  | _ n ih =>
    match n with
    | 0 => intro d hd; simp [toDigitsRev, toDigitsRevAux] at hd
    | m + 1 =>
      rw [toDigitsRev_succ]
      intro d hd
      rcases List.mem_cons.mp hd with h | h
      · subst h; exact Nat.mod_lt _ (by omega)
      · exact ih ((m + 1) / 10) (Nat.div_lt_self (Nat.succ_pos m) (by omega)) d h

theorem toDigitsRev_length_le (k n : Nat) (h : n < 10 ^ k) :
    (toDigitsRev n).length ≤ k := by
  induction k generalizing n with
  | zero =>
    match n with
    | 0 => simp [toDigitsRev, toDigitsRevAux]
    | _ + 1 => simp at h
  | succ k ih =>
    match n with
    | 0 => simp [toDigitsRev, toDigitsRevAux]
    | m + 1 =>
      rw [toDigitsRev_succ]
      simp only [List.length_cons]
      have : (m + 1) / 10 < 10 ^ k := by
        rw [Nat.div_lt_iff_lt_mul (by omega)]
        calc m + 1 < 10 ^ (k + 1) := h
        _ = 10 ^ k * 10 := by ring
      exact Nat.succ_le_succ (ih _ this)

theorem digitChar_toNat (d : Nat) (h : d < 10) : (digitChar d).toNat = 48 + d := by
  interval_cases d <;> decide

theorem digitChar_isDigit (d : Nat) (h : d < 10) : (digitChar d).isDigit = true := by
  interval_cases d <;> decide

theorem digitsVal_replicate_zero (k : Nat) (s : List Char) :
    digitsVal (List.replicate k '0' ++ s) = digitsVal s := by
  induction k with
  | zero => rfl
  | succ k ih =>
    simp only [List.replicate_succ, List.cons_append]
    show digitsVal (List.replicate k '0' ++ s) = _
    exact ih

theorem digitsVal_append_one (s : List Char) (c : Char) :
    digitsVal (s ++ [c]) = 10 * digitsVal s + (c.toNat - 48) := by
  simp [digitsVal, List.foldl_append]

theorem digitsVal_natChars (n : Nat) : digitsVal (natChars n) = n := by
  have key : ∀ l : List Nat, (∀ d ∈ l, d < 10) →
      digitsVal (l.reverse.map digitChar) = fromRev l := by
    intro l
    induction l with
    | nil => intro _; rfl
    | cons d t ih =>
      intro h
      simp only [List.reverse_cons, List.map_append, List.map_cons, List.map_nil]
      rw [digitsVal_append_one]
      rw [ih (fun x hx => h x (by simp [hx]))]
      rw [digitChar_toNat d (h d (by simp))]
      simp [fromRev]
      omega
  rw [natChars, key _ (toDigitsRev_lt_ten n), fromRev_toDigitsRev]

theorem digitsVal_migKey (n : Nat) : digitsVal (migKey n) = n := by
  rw [migKey, digitsVal_replicate_zero, digitsVal_natChars]

theorem migKey_injective (a b : Nat) (h : migKey a = migKey b) : a = b := by
  have := congrArg digitsVal h
  rwa [digitsVal_migKey, digitsVal_migKey] at this

theorem migKey_length (n : Nat) (h : n ≤ 999) : (migKey n).length = 3 := by
  have hl : (natChars n).length ≤ 3 := by
    rw [natChars, List.length_map, List.length_reverse]
    exact toDigitsRev_length_le 3 n (by omega)
  simp [migKey, List.length_append, List.length_replicate]
  omega

theorem migKey_digits (n : Nat) : ∀ c ∈ migKey n, c.isDigit = true := by
  intro c hc
  rw [migKey] at hc
  rcases List.mem_append.mp hc with h | h
  · rw [List.eq_of_mem_replicate h]; decide
  · rw [natChars] at h
    obtain ⟨d, hd, rfl⟩ := List.mem_map.mp h
    exact digitChar_isDigit d (toDigitsRev_lt_ten n d (List.mem_reverse.mp hd))

/-! ## Lemmas about splitting and joining lines -/

theorem splitLines_ne_nil (s : List Char) : splitLines s ≠ [] := by
  induction s with
  | nil => simp [splitLines]
  | cons c rest ih =>
    simp only [splitLines]
    split
    · simp
    · split
      · simp
      · simp

theorem joinLines_splitLines (s : List Char) : joinLines (splitLines s) = s := by
  induction s with
  | nil => rfl
  | cons c rest ih =>
    simp only [splitLines]
    split
    · rename_i hc
      subst hc
      cases h : splitLines rest with
      | nil => exact absurd h (splitLines_ne_nil rest)
      | cons l ls =>
        rw [joinLines]
        rw [h] at ih
        simp [ih]
    · cases h : splitLines rest with
      | nil => exact absurd h (splitLines_ne_nil rest)
      | cons l ls =>
        rw [h] at ih
        cases ls with
        | nil => simp only [joinLines] at ih ⊢; simp [ih]
        | cons l2 ls2 => simp only [joinLines] at ih ⊢; simp [ih]

theorem splitLines_append (a b : List Char) :
    splitLines (a ++ '\n' :: b) = splitLines a ++ splitLines b := by
  induction a with
  | nil =>
    show splitLines ('\n' :: b) = [[]] ++ splitLines b
    rw [splitLines, if_pos rfl]
    rfl
  | cons c rest ih =>
    show splitLines (c :: (rest ++ '\n' :: b)) = splitLines (c :: rest) ++ splitLines b
    rw [splitLines, splitLines]
    by_cases hc : c = '\n'
    · rw [if_pos hc, if_pos hc, ih]
      rfl
    · rw [if_neg hc, if_neg hc, ih]
      cases h : splitLines rest with
      | nil => exact absurd h (splitLines_ne_nil rest)
      | cons l ls => rfl

/-! ## Lemmas about the marker parse -/

theorem dropLit_eq_some : ∀ (lit s r : List Char), dropLit lit s = some r ↔ s = lit ++ r
  | [], s, r => by simp [dropLit]
  | l :: ls, [], r => by simp [dropLit]
  | l :: ls, c :: cs, r => by
    by_cases hcl : c = l
    · subst hcl
      rw [dropLit, if_pos rfl]
      rw [dropLit_eq_some ls cs r]
      simp
    · rw [dropLit, if_neg hcl]
      simp [hcl]

theorem takeDigits_spec : ∀ (s ds r : List Char), takeDigits s = (ds, r) →
    s = ds ++ r ∧ ∀ c ∈ ds, c.isDigit = true
  | [], ds, r => by
    intro h
    rw [takeDigits] at h
    obtain ⟨rfl, rfl⟩ := Prod.mk.injEq .. ▸ Prod.ext_iff.mp h
    simp
  | c :: rest, ds, r => by
    intro h
    by_cases hd : c.isDigit
    · rw [takeDigits, if_pos hd] at h
      rcases heq : takeDigits rest with ⟨ds2, r2⟩
      rw [heq] at h
      obtain ⟨h1, h2⟩ := Prod.ext_iff.mp h
      simp only at h1 h2
      subst h1
      subst h2
      obtain ⟨hs, hds⟩ := takeDigits_spec rest ds2 r2 heq
      constructor
      · rw [hs]; rfl
      · intro x hx
        rcases List.mem_cons.mp hx with h3 | h3
        · subst h3; exact hd
        · exact hds x h3
    · rw [takeDigits, if_neg hd] at h
      obtain ⟨h1, h2⟩ := Prod.ext_iff.mp h
      simp only at h1 h2
      subst h1
      subst h2
      simp

theorem takeDigits_of_run : ∀ (ds : List Char) (c : Char) (t : List Char),
    (∀ x ∈ ds, x.isDigit = true) → c.isDigit = false →
    takeDigits (ds ++ c :: t) = (ds, c :: t)
  | [], c, t => by
    intro _ hc
    show takeDigits (c :: t) = ([], c :: t)
    rw [takeDigits, if_neg (by rw [hc]; exact Bool.false_ne_true)]
  | d :: ds2, c, t => by
    intro hds hc
    have hd : d.isDigit = true := hds d (by simp)
    show takeDigits (d :: (ds2 ++ c :: t)) = (d :: ds2, c :: t)
    rw [takeDigits, if_pos hd,
      takeDigits_of_run ds2 c t (fun x hx => hds x (by simp [hx])) hc]

theorem splitFirstSql_spec : ∀ (s a b : List Char), splitFirstSql s = some (a, b) →
    s = a ++ (sqlLit ++ b)
  | [], a, b => by intro h; simp [splitFirstSql] at h
  | c :: rest, a, b => by
    intro h
    rw [splitFirstSql] at h
    cases hdl : dropLit sqlLit (c :: rest) with
    | some tl =>
      rw [hdl] at h
      obtain ⟨h1, h2⟩ := Prod.ext_iff.mp (Option.some.inj h)
      simp only at h1 h2
      subst h1
      subst h2
      simpa using (dropLit_eq_some sqlLit (c :: rest) tl).mp hdl
    | none =>
      rw [hdl] at h
      cases hrec : splitFirstSql rest with
      | none => rw [hrec] at h; simp at h
      | some p =>
        rw [hrec] at h
        obtain ⟨h1, h2⟩ := Prod.ext_iff.mp (Option.some.inj h)
        simp only at h1 h2
        subst h1
        subst h2
        have := splitFirstSql_spec rest p.1 p.2 (by rw [hrec])
        rw [this]
        rfl

theorem splitFirstSql_isSome : ∀ (a b : List Char),
    (splitFirstSql (a ++ (sqlLit ++ b))).isSome = true
  | [], b => by
    have hdl : dropLit sqlLit ('.' :: 's' :: 'q' :: 'l' :: b) = some b :=
      (dropLit_eq_some sqlLit _ b).mpr rfl
    show (splitFirstSql ('.' :: 's' :: 'q' :: 'l' :: b)).isSome = true
    rw [splitFirstSql, hdl]
    rfl
  | c :: a2, b => by
    show (splitFirstSql (c :: (a2 ++ (sqlLit ++ b)))).isSome = true
    rw [splitFirstSql]
    cases h2 : dropLit sqlLit (c :: (a2 ++ (sqlLit ++ b))) with
    | some tl => rfl
    | none =>
      have ih := splitFirstSql_isSome a2 b
      cases h3 : splitFirstSql (a2 ++ (sqlLit ++ b)) with
      | none => rw [h3] at ih; simp at ih
      | some p => rfl

theorem nameSql_spec (s nm r : List Char) (h : nameSql s = some (nm, r)) :
    s = nm ++ (sqlLit ++ r) ∧ nm ≠ [] := by
  cases s with
  | nil => simp [nameSql] at h
  | cons c rest =>
    rw [nameSql] at h
    cases h2 : splitFirstSql rest with
    | none => rw [h2] at h; simp at h
    | some p =>
      rw [h2] at h
      obtain ⟨h3, h4⟩ := Prod.ext_iff.mp (Option.some.inj h)
      simp only at h3 h4
      subst h3
      subst h4
      refine ⟨?_, by simp⟩
      rw [splitFirstSql_spec rest p.1 p.2 (by rw [h2])]
      rfl

theorem nameSql_isSome (nm r : List Char) (h : nm ≠ []) :
    (nameSql (nm ++ (sqlLit ++ r))).isSome = true := by
  cases nm with
  | nil => exact absurd rfl h
  | cons c t =>
    show (nameSql (c :: (t ++ (sqlLit ++ r)))).isSome = true
    rw [nameSql]
    cases h3 : splitFirstSql (t ++ (sqlLit ++ r)) with
    | none =>
      have := splitFirstSql_isSome t r
      rw [h3] at this
      simp at this
    | some p => rfl

theorem parseMarker_isSome_iff (l : List Char) :
    (parseMarker l).isSome = true ↔
    ∃ ds nm r, l = markerLit ++ (ds ++ '_' :: (nm ++ (sqlLit ++ r))) ∧
      ds ≠ [] ∧ (∀ c ∈ ds, c.isDigit = true) ∧ nm ≠ [] := by
  constructor
  · intro h
    rw [parseMarker] at h
    cases hdl : dropLit markerLit l with
    | none => rw [hdl] at h; simp at h
    | some s1 =>
      rw [hdl] at h
      dsimp only at h
      rcases htd : takeDigits s1 with ⟨ds, s2⟩
      rw [htd] at h
      dsimp only at h
      by_cases hds : ds = []
      · rw [if_pos hds] at h; simp at h
      · rw [if_neg hds] at h
        cases s2 with
        | nil => simp at h
        | cons c s3 =>
          dsimp only at h
          by_cases hc : c = '_'
          · rw [if_pos hc] at h
            cases hns : nameSql s3 with
            | none => rw [hns] at h; simp at h
            | some p =>
              obtain ⟨hs3, hnm⟩ := nameSql_spec s3 p.1 p.2 (by rw [hns])
              obtain ⟨hs1, hdig⟩ := takeDigits_spec s1 ds (c :: s3) htd
              refine ⟨ds, p.1, p.2, ?_, hds, hdig, hnm⟩
              rw [(dropLit_eq_some markerLit l s1).mp hdl, hs1, hc, hs3]
          · rw [if_neg hc] at h; simp at h
  · rintro ⟨ds, nm, r, rfl, hds, hdig, hnm⟩
    rw [parseMarker]
    have hdl : dropLit markerLit
        (markerLit ++ (ds ++ '_' :: (nm ++ (sqlLit ++ r)))) =
        some (ds ++ '_' :: (nm ++ (sqlLit ++ r))) :=
      (dropLit_eq_some markerLit _ _).mpr rfl
    rw [hdl]
    dsimp only
    rw [takeDigits_of_run ds '_' (nm ++ (sqlLit ++ r)) hdig (by decide)]
    dsimp only
    rw [if_neg hds, if_pos rfl]
    cases hns : nameSql (nm ++ (sqlLit ++ r)) with
    | none =>
      have := nameSql_isSome nm r hnm
      rw [hns] at this
      simp at this
    | some p => rfl

/-! ## Lemmas about the Splitter state machine -/

theorem stepLine_marker (st : SplitState) (l : List Char) (p : Nat × List Char)
    (h : parseMarker l = some p) : stepLine st l = ⟨finalize st, some p, [l]⟩ := by
  rw [stepLine, h]

theorem stepLine_nonmarker (st : SplitState) (l : List Char)
    (h : parseMarker l = none) :
    stepLine st l = ⟨st.migrations, st.current, st.buffer ++ [l]⟩ := by
  rw [stepLine, h]

theorem foldl_nonmarkers : ∀ (L : List (List Char)) (st : SplitState), noMarkers L →
    L.foldl stepLine st = ⟨st.migrations, st.current, st.buffer ++ L⟩
  | [], st => by
    intro _
    cases st
    simp
  | l :: L2, st => by
    intro h
    have hl : parseMarker l = none := h l (by simp)
    rw [List.foldl_cons, stepLine_nonmarker st l hl,
      foldl_nonmarkers L2 _ (fun x hx => h x (by simp [hx]))]
    simp

theorem finalize_current_none (m : List (List Char × MigEntry)) (b : List (List Char)) :
    finalize ⟨m, none, b⟩ = m := rfl

theorem foldl_buffer_irrelevant :
    ∀ (rest : List (List Char)) (m : List (List Char × MigEntry))
      (b1 b2 : List (List Char)),
    finalize (rest.foldl stepLine ⟨m, none, b1⟩) =
      finalize (rest.foldl stepLine ⟨m, none, b2⟩)
  | [], m, b1, b2 => rfl
  | l :: rest2, m, b1, b2 => by
    cases hp : parseMarker l with
    | some p =>
      rw [List.foldl_cons, List.foldl_cons, stepLine_marker _ l p hp,
        stepLine_marker _ l p hp]
      rfl
    | none =>
      rw [List.foldl_cons, List.foldl_cons, stepLine_nonmarker _ l hp,
        stepLine_nonmarker _ l hp]
      exact foldl_buffer_irrelevant rest2 m (b1 ++ [l]) (b2 ++ [l])

theorem migrationsOf_discard (pre rest : List (List Char)) (h : noMarkers pre) :
    migrationsOf (pre ++ rest) = migrationsOf rest := by
  rw [migrationsOf, migrationsOf, List.foldl_append,
    foldl_nonmarkers pre initState h]
  exact foldl_buffer_irrelevant rest [] ([] ++ pre) []

theorem mem_insertAL (k : List Char) (v : MigEntry) :
    ∀ (al : List (List Char × MigEntry)) (k2 : List Char) (e : MigEntry),
    (k2, e) ∈ insertAL k v al → (k2 = k ∧ e = v) ∨ (k2, e) ∈ al
  | [], k2, e => by
    intro h
    rw [insertAL] at h
    rcases List.mem_singleton.mp h with h2
    left
    exact ⟨congrArg Prod.fst h2, congrArg Prod.snd h2⟩
  | (k3, v3) :: rest, k2, e => by
    intro h
    rw [insertAL] at h
    by_cases h3 : k3 = k
    · rw [if_pos h3] at h
      rcases List.mem_cons.mp h with h4 | h4
      · left; exact ⟨congrArg Prod.fst h4, congrArg Prod.snd h4⟩
      · right; exact List.mem_cons_of_mem _ h4
    · rw [if_neg h3] at h
      rcases List.mem_cons.mp h with h4 | h4
      · right; exact List.mem_cons.mpr (Or.inl h4)
      · rcases mem_insertAL k v rest k2 e h4 with h5 | h5
        · left; exact h5
        · right; exact List.mem_cons_of_mem _ h5

theorem insertAL_fresh (k : List Char) (v : MigEntry) :
    ∀ (al : List (List Char × MigEntry)), k ∉ al.map Prod.fst →
    insertAL k v al = al ++ [(k, v)]
  | [], _ => rfl
  | (k3, v3) :: rest, h => by
    have h3 : k3 ≠ k := by
      intro he
      subst he
      exact h (List.mem_cons_self k3 _)
    rw [insertAL, if_neg h3,
      insertAL_fresh k v rest (fun hm => h (List.mem_cons_of_mem _ hm))]
    rfl

theorem insertAL_same_key (k : List Char) (v1 v2 : MigEntry) :
    insertAL k v2 [(k, v1)] = [(k, v2)] := by
  rw [insertAL, if_pos rfl]

/-! ## The segment invariant of the Splitter loop -/

theorem SegMarked_extend (P X : List (List Char)) (k : List Char) (e : MigEntry)
    (h : SegMarked P k e) : SegMarked (P ++ X) k e := by
  obtain ⟨pre, mkr, mid, post, n, hP, hm, hk, hmid, ⟨l2, t2, hpost, hl2⟩, hc⟩ := h
  refine ⟨pre, mkr, mid, l2 :: (t2 ++ X), n, ?_, hm, hk, hmid, ⟨l2, t2 ++ X, rfl, hl2⟩, hc⟩
  subst hpost
  rw [hP]
  simp

theorem inv_step (P : List (List Char)) (st : SplitState) (l : List Char)
    (h : InvState P st) : InvState (P ++ [l]) (stepLine st l) := by
  obtain ⟨m, cur, buf⟩ := st
  obtain ⟨h1, h2⟩ := h
  cases hp : parseMarker l with
  | none =>
    rw [stepLine_nonmarker _ _ hp]
    refine ⟨?_, ?_⟩
    · intro k e hke
      exact SegMarked_extend P [l] k e (h1 k e hke)
    · cases cur with
      | none => exact h2
      | some q =>
        obtain ⟨pre, mkr, mid, hbuf, hPre, hq, hmid⟩ := h2
        dsimp only at hbuf hPre
        refine ⟨pre, mkr, mid ++ [l], ?_, ?_, hq, ?_⟩
        · show buf ++ [l] = mkr :: (mid ++ [l])
          rw [hbuf]
          rfl
        · show P ++ [l] = pre ++ (buf ++ [l])
          rw [hPre, hbuf]
          simp
        · intro x hx
          rcases List.mem_append.mp hx with h3 | h3
          · exact hmid x h3
          · rw [List.mem_singleton.mp h3]
            exact hp
  | some p =>
    rw [stepLine_marker _ _ p hp]
    refine ⟨?_, ?_⟩
    · intro k e hke
      cases cur with
      | none =>
        rw [finalize_current_none] at hke
        rw [h2] at hke
        simp at hke
      | some q =>
        obtain ⟨pre, mkr, mid, hbuf, hPre, hq, hmid⟩ := h2
        dsimp only at hbuf hPre
        rcases mem_insertAL (migKey q.1) ⟨q.2, joinLines buf⟩ m k e hke with ⟨rfl, rfl⟩ | hold
        · refine ⟨pre, mkr, mid, [l], q.1, ?_, hq, rfl, hmid,
            ⟨l, [], rfl, by rw [hp]; rfl⟩, ?_⟩
          · rw [hPre, hbuf]
            simp
          · show joinLines buf = joinLines (mkr :: mid)
            rw [hbuf]
        · exact SegMarked_extend P [l] k e (h1 k e hold)
    · refine ⟨P, l, [], rfl, rfl, ?_, ?_⟩
      · rw [hp]
      · intro x hx
        simp at hx

theorem inv_fold : ∀ (rest : List (List Char)) (st : SplitState) (P : List (List Char)),
    InvState P st → InvState (P ++ rest) (rest.foldl stepLine st)
  | [], st, P => by
    intro h
    simpa using h
  | l :: rest2, st, P => by
    intro h
    rw [List.foldl_cons]
    have h2 := inv_fold rest2 (stepLine st l) (P ++ [l]) (inv_step P st l h)
    rwa [List.append_assoc] at h2

theorem segAt_of_mem (lines : List (List Char)) (k : List Char) (e : MigEntry)
    (h : (k, e) ∈ migrationsOf lines) : SegAt lines k e := by
  have hinit : InvState [] initState := by
    refine ⟨?_, rfl⟩
    intro k2 e2 hk2
    simp [initState] at hk2
  have hinv := inv_fold lines initState [] hinit
  rw [List.nil_append] at hinv
  rw [migrationsOf] at h
  rcases hfs : lines.foldl stepLine initState with ⟨m, cur, buf⟩
  rw [hfs] at h hinv
  obtain ⟨h1, h2⟩ := hinv
  cases cur with
  | none =>
    rw [finalize_current_none] at h
    obtain ⟨pre, mkr, mid, post, n, hP, hm, hk, hmid, hpost, hc⟩ := h1 k e h
    exact ⟨pre, mkr, mid, post, n, hP, hm, hk, hmid, Or.inr hpost, hc⟩
  | some q =>
    obtain ⟨pre, mkr, mid, hbuf, hPre, hq, hmid⟩ := h2
    dsimp only at hbuf hPre
    rcases mem_insertAL (migKey q.1) ⟨q.2, joinLines buf⟩ m k e h with ⟨rfl, rfl⟩ | hold
    · refine ⟨pre, mkr, mid, [], q.1, ?_, hq, rfl, hmid, Or.inl rfl, ?_⟩
      · rw [hPre, hbuf]
        simp
      · show joinLines buf = joinLines (mkr :: mid)
        rw [hbuf]
    · obtain ⟨pre2, mkr2, mid2, post2, n2, hP2, hm2, hk2, hmid2, hpost2, hc2⟩ := h1 k e hold
      exact ⟨pre2, mkr2, mid2, post2, n2, hP2, hm2, hk2, hmid2, Or.inr hpost2, hc2⟩

/-! ## Round-trip fold lemma for the Splitter -/

theorem migrationsOf_units : ∀ (units : List MigUnit) (st : SplitState),
    (∀ u ∈ units, wfUnit u) →
    (∀ u ∈ units, migKey u.seq ∉ (finalize st).map Prod.fst) →
    List.Pairwise (fun a b => a.seq ≠ b.seq) units →
    finalize (((units.map (fun u => splitLines u.body)).flatten).foldl stepLine st) =
      finalize st ++ units.map unitEntry
  | [], st => by
    intro _ _ _
    simp
  | u :: rest, st => by
    intro hwf hfresh hpw
    have hwfu : wfUnit u := hwf u (by simp)
    cases hsl : splitLines u.body with
    | nil => exact absurd hsl (splitLines_ne_nil u.body)
    | cons mkr tail =>
      obtain ⟨hmk, htail⟩ := hwfu
      rw [hsl] at hmk htail
      simp only [List.headI, List.tail_cons] at hmk htail
      have hfr_u : migKey u.seq ∉ (finalize st).map Prod.fst := hfresh u (by simp)
      have hfin2 : finalize ⟨finalize st, some (u.seq, u.name), [mkr] ++ tail⟩ =
          finalize st ++ [unitEntry u] := by
        show insertAL (migKey u.seq) ⟨u.name, joinLines ([mkr] ++ tail)⟩ (finalize st) =
          finalize st ++ [unitEntry u]
        rw [insertAL_fresh (migKey u.seq) _ (finalize st) hfr_u]
        have : joinLines ([mkr] ++ tail) = u.body := by
          show joinLines (mkr :: tail) = u.body
          rw [← hsl, joinLines_splitLines]
        rw [this]
        rfl
      rw [List.map_cons, hsl, List.flatten_cons, List.foldl_append, List.foldl_cons,
        stepLine_marker st mkr (u.seq, u.name) hmk, foldl_nonmarkers tail _ htail]
      have ih := migrationsOf_units rest
        ⟨finalize st, some (u.seq, u.name), [mkr] ++ tail⟩
        (fun v hv => hwf v (by simp [hv]))
        (by
          intro v hv
          rw [hfin2]
          intro hmem
          rw [List.map_append] at hmem
          rcases List.mem_append.mp hmem with h3 | h3
          · exact hfresh v (by simp [hv]) h3
          · have hne : u.seq ≠ v.seq :=
              (List.pairwise_cons.mp hpw).1 v hv
            have : migKey v.seq = migKey u.seq := by
              simpa [unitEntry] using h3
            exact hne (migKey_injective u.seq v.seq this.symm))
        (List.pairwise_cons.mp hpw).2
      rw [ih, hfin2]
      simp [unitEntry]

/-! ## Lemmas about the Engine -/

theorem pyRead_no_cr : ∀ s : List Char, (∀ c ∈ s, c ≠ '\r') → pyRead s = s
  | [], _ => rfl
  | [c], h => by
    have : c ≠ '\r' := h c (by simp)
    simp [pyRead, this]
  | c :: c2 :: rest, h => by
    have hc : c ≠ '\r' := h c (by simp)
    rw [pyRead, if_neg hc, pyRead_no_cr (c2 :: rest) (fun x hx => h x (by
      rcases List.mem_cons.mp hx with h1 | h1
      · simp [h1]
      · simp [h1]))]

theorem stateAt_zero (c0 : List (List Char)) (files : List MigFile) :
    stateAt c0 files 0 = c0 := by
  simp [stateAt]

theorem stateAt_cons (c0 : List (List Char)) (f : MigFile) (rest : List MigFile) (k : Nat) :
    stateAt (c0 ++ [bodyOf f]) rest k = stateAt c0 (f :: rest) (k + 1) := by
  simp [stateAt, List.take_succ_cons]

theorem execUnits_fail : ∀ (files : List MigFile)
    (ex : List (List Char) → List Char → Option (List Char))
    (c0 : List (List Char)) (i : Nat) (hi : i < files.length) (cause : List Char),
    (∀ k, (hk : k < i) →
      ex (stateAt c0 files k) (bodyOf (files.get ⟨k, Nat.lt_trans hk hi⟩)) = none) →
    ex (stateAt c0 files i) (bodyOf (files.get ⟨i, hi⟩)) = some cause →
    execUnits ex c0 files =
      ⟨(files.take i).map (fun f => ⟨f.name, Status.ok, none⟩) ++
         [⟨(files.get ⟨i, hi⟩).name, Status.failed, some cause⟩],
       stateAt c0 files i,
       some ((files.get ⟨i, hi⟩).name, cause)⟩
  | [], ex, c0, i, hi, cause => by
    intro _ _
    exact absurd hi (by simp)
  | f :: rest, ex, c0, i, hi, cause => by
    intro hok hfail
    cases i with
    | zero =>
      have hf : ex c0 (bodyOf f) = some cause := by
        rw [stateAt_zero] at hfail
        exact hfail
      rw [execUnits, hf]
      simp [stateAt]
    | succ j =>
      have h0 : ex c0 (bodyOf f) = none := by
        have h := hok 0 (Nat.succ_pos j)
        rwa [stateAt_zero] at h
      have hj : j < rest.length := by simpa using hi
      have ih := execUnits_fail rest ex (c0 ++ [bodyOf f]) j hj cause
        (fun k hk => by
          have h := hok (k + 1) (Nat.succ_lt_succ hk)
          rwa [← stateAt_cons] at h)
        (by
          rw [stateAt_cons]
          exact hfail)
      rw [execUnits, h0, ih]
      rw [← stateAt_cons]
      simp [List.take_succ_cons]

/-! ## Lemmas about the ScriptStore -/

theorem charEq_iff_toNat (a b : Char) : a = b ↔ a.toNat = b.toNat := by
  constructor
  · intro h
    rw [h]
  · intro h
    have := congrArg Char.ofNat h
    rwa [Char.ofNat_toNat, Char.ofNat_toNat] at this

theorem isDigit_bounds (c : Char) (h : c.isDigit = true) :
    48 ≤ c.toNat ∧ c.toNat ≤ 57 := by
  simp [Char.isDigit] at h
  exact h

theorem lexLe_total : ∀ a b, lexLe a b = true ∨ lexLe b a = true := by
  intro a
  induction a with
  | nil => intro b; left; rfl
  | cons x xs ih =>
    intro b
    cases b with
    | nil => right; rfl
    | cons y ys =>
      simp only [lexLe]
      by_cases h : x.toNat = y.toNat
      · rw [if_pos h, if_pos h.symm]
        exact ih ys
      · rw [if_neg h, if_neg (fun hh => h hh.symm)]
        simp only [decide_eq_true_eq]
        omega

theorem lexLe_trans : ∀ a b c, lexLe a b = true → lexLe b c = true → lexLe a c = true := by
  intro a
  induction a with
  | nil => intro b c _ _; rfl
  | cons x xs ih =>
    intro b c hab hbc
    cases b with
    | nil => simp [lexLe] at hab
    | cons y ys =>
      cases c with
      | nil => simp [lexLe] at hbc
      | cons z zs =>
        simp only [lexLe] at hab hbc ⊢
        by_cases hxy : x.toNat = y.toNat
        · rw [if_pos hxy] at hab
          by_cases hyz : y.toNat = z.toNat
          · rw [if_pos hyz] at hbc
            rw [if_pos (hxy.trans hyz)]
            exact ih ys zs hab hbc
          · rw [if_neg hyz] at hbc
            simp only [decide_eq_true_eq] at hbc
            rw [if_neg (by omega), decide_eq_true_eq]
            omega
        · rw [if_neg hxy] at hab
          simp only [decide_eq_true_eq] at hab
          by_cases hyz : y.toNat = z.toNat
          · rw [if_neg (by omega), decide_eq_true_eq]
            omega
          · rw [if_neg hyz] at hbc
            simp only [decide_eq_true_eq] at hbc
            rw [if_neg (by omega), decide_eq_true_eq]
            omega

theorem mem_insertSorted (x a : List Char) (l : List (List Char)) :
    a ∈ insertSorted x l ↔ a = x ∨ a ∈ l := by
  induction l with
  | nil => simp [insertSorted]
  | cons y ys ih =>
    simp only [insertSorted]
    split
    · simp
    · simp [ih]
      tauto

theorem mem_sortLex (a : List Char) (l : List (List Char)) : a ∈ sortLex l ↔ a ∈ l := by
  induction l with
  | nil => simp [sortLex]
  | cons y ys ih =>
    show a ∈ insertSorted y (sortLex ys) ↔ _
    rw [mem_insertSorted]
    simp [ih]

theorem pairwise_insertSorted (x : List Char) (l : List (List Char))
    (h : l.Pairwise (fun a b => lexLe a b = true)) :
    (insertSorted x l).Pairwise (fun a b => lexLe a b = true) := by
  induction l with
  | nil => simp [insertSorted]
  | cons y ys ih =>
    simp only [insertSorted]
    rcases List.pairwise_cons.mp h with ⟨hy, hys⟩
    split
    · rename_i hxy
      refine List.pairwise_cons.mpr ⟨?_, h⟩
      intro b hb
      rcases List.mem_cons.mp hb with h1 | h1
      · subst h1; exact hxy
      · exact lexLe_trans x y b hxy (hy b h1)
    · rename_i hxy
      have hyx : lexLe y x = true := by
        rcases lexLe_total x y with h1 | h1
        · exact absurd h1 hxy
        · exact h1
      refine List.pairwise_cons.mpr ⟨?_, ih hys⟩
      intro b hb
      rcases (mem_insertSorted x b ys).mp hb with h1 | h1
      · subst h1; exact hyx
      · exact hy b h1

theorem pairwise_sortLex (l : List (List Char)) :
    (sortLex l).Pairwise (fun a b => lexLe a b = true) := by
  induction l with
  | nil => simp [sortLex]
  | cons y ys ih => exact pairwise_insertSorted y (sortLex ys) ih

theorem hasNumericSeq_shape (f : List Char) (h : hasNumericSeq f = true) :
    ∃ a b c r, f = a :: b :: c :: '_' :: r ∧
      a.isDigit = true ∧ b.isDigit = true ∧ c.isDigit = true := by
  match f with
  | [] => simp [hasNumericSeq] at h
  | [_] => simp [hasNumericSeq] at h
  | [_, _] => simp [hasNumericSeq] at h
  | [_, _, _] => simp [hasNumericSeq] at h
  | a :: b :: c :: d :: r =>
    rw [hasNumericSeq] at h
    simp only [Bool.and_eq_true, decide_eq_true_eq] at h
    obtain ⟨⟨⟨ha, hb⟩, hc⟩, hd⟩ := h
    exact ⟨a, b, c, r, by rw [hd], ha, hb, hc⟩

theorem digitsVal_three (a b c : Char) :
    digitsVal [a, b, c] =
      100 * (a.toNat - 48) + 10 * (b.toNat - 48) + (c.toNat - 48) := by
  simp [digitsVal]
  ring

theorem seq_lt_of_lexLe (x y : List Char)
    (hx : hasNumericSeq x = true) (hy : hasNumericSeq y = true)
    (hle : lexLe x y = true) (hne : x.take 3 ≠ y.take 3) : seqOf x < seqOf y := by
  obtain ⟨a1, a2, a3, xr, rfl, ha1, ha2, ha3⟩ := hasNumericSeq_shape x hx
  obtain ⟨b1, b2, b3, yr, rfl, hb1, hb2, hb3⟩ := hasNumericSeq_shape y hy
  obtain ⟨ha1l, ha1r⟩ := isDigit_bounds a1 ha1
  obtain ⟨ha2l, ha2r⟩ := isDigit_bounds a2 ha2
  obtain ⟨ha3l, ha3r⟩ := isDigit_bounds a3 ha3
  obtain ⟨hb1l, hb1r⟩ := isDigit_bounds b1 hb1
  obtain ⟨hb2l, hb2r⟩ := isDigit_bounds b2 hb2
  obtain ⟨hb3l, hb3r⟩ := isDigit_bounds b3 hb3
  have htake : ([a1, a2, a3] : List Char) ≠ [b1, b2, b3] := by
    intro hcontra
    exact hne (by simpa [List.take] using hcontra)
  have hseqx : seqOf (a1 :: a2 :: a3 :: '_' :: xr) = digitsVal [a1, a2, a3] := by
    simp [seqOf, List.take]
  have hseqy : seqOf (b1 :: b2 :: b3 :: '_' :: yr) = digitsVal [b1, b2, b3] := by
    simp [seqOf, List.take]
  rw [hseqx, hseqy, digitsVal_three, digitsVal_three]
  simp only [lexLe] at hle
  by_cases h1 : a1.toNat = b1.toNat
  · rw [if_pos h1] at hle
    by_cases h2 : a2.toNat = b2.toNat
    · rw [if_pos h2] at hle
      by_cases h3 : a3.toNat = b3.toNat
      · exfalso
        apply htake
        rw [(charEq_iff_toNat a1 b1).mpr h1, (charEq_iff_toNat a2 b2).mpr h2,
          (charEq_iff_toNat a3 b3).mpr h3]
      · rw [if_neg h3, decide_eq_true_eq] at hle
        omega
    · rw [if_neg h2, decide_eq_true_eq] at hle
      omega
  · rw [if_neg h1, decide_eq_true_eq] at hle
    omega

/-! ## Key uniqueness in the Splitter dictionary -/

theorem mem_keys_insertAL (k : List Char) (v : MigEntry)
    (al : List (List Char × MigEntry)) (x : List Char)
    (h : x ∈ (insertAL k v al).map Prod.fst) : x = k ∨ x ∈ al.map Prod.fst := by
  obtain ⟨⟨k2, e2⟩, hmem, rfl⟩ := List.mem_map.mp h
  rcases mem_insertAL k v al k2 e2 hmem with ⟨rfl, rfl⟩ | hold
  · left; rfl
  · right; exact List.mem_map.mpr ⟨(k2, e2), hold, rfl⟩

theorem nodupKeys_insertAL (k : List Char) (v : MigEntry) :
    ∀ (al : List (List Char × MigEntry)), (al.map Prod.fst).Nodup →
    ((insertAL k v al).map Prod.fst).Nodup
  | [], _ => by simp [insertAL]
  | (k3, v3) :: rest, h => by
    rw [List.map_cons] at h
    obtain ⟨h1, h2⟩ := List.nodup_cons.mp h
    by_cases h3 : k3 = k
    · rw [insertAL, if_pos h3, List.map_cons]
      exact List.nodup_cons.mpr ⟨h3 ▸ h1, h2⟩
    · rw [insertAL, if_neg h3, List.map_cons]
      refine List.nodup_cons.mpr ⟨?_, nodupKeys_insertAL k v rest h2⟩
      intro hmem
      rcases mem_keys_insertAL k v rest k3 hmem with h4 | h4
      · exact h3 h4
      · exact h1 h4

theorem nodupKeys_finalize (st : SplitState)
    (h : (st.migrations.map Prod.fst).Nodup) :
    ((finalize st).map Prod.fst).Nodup := by
  obtain ⟨m, cur, buf⟩ := st
  cases cur with
  | none => exact h
  | some q => exact nodupKeys_insertAL (migKey q.1) ⟨q.2, joinLines buf⟩ m h

theorem nodupKeys_fold : ∀ (lines : List (List Char)) (st : SplitState),
    (st.migrations.map Prod.fst).Nodup →
    ((finalize (lines.foldl stepLine st)).map Prod.fst).Nodup
  | [], st => by
    intro h
    exact nodupKeys_finalize st h
  | l :: rest, st => by
    intro h
    rw [List.foldl_cons]
    cases hp : parseMarker l with
    | none =>
      rw [stepLine_nonmarker st l hp]
      exact nodupKeys_fold rest _ h
    | some p =>
      rw [stepLine_marker st l p hp]
      exact nodupKeys_fold rest _ (nodupKeys_finalize st h)

theorem nodupKeys_migrationsOf (lines : List (List Char)) :
    ((migrationsOf lines).map Prod.fst).Nodup := by
  rw [migrationsOf]
  exact nodupKeys_fold lines initState (by simp [initState])

/-! ## All-success Engine runs -/

theorem execUnits_all_ok : ∀ (files : List MigFile)
    (ex : List (List Char) → List Char → Option (List Char))
    (c0 : List (List Char)), (∀ c b, ex c b = none) →
    execUnits ex c0 files =
      ⟨files.map (fun f => ⟨f.name, Status.ok, none⟩), c0 ++ files.map bodyOf, none⟩
  | [], ex, c0 => by
    intro _
    simp [execUnits]
  | f :: rest, ex, c0 => by
    intro hok
    rw [execUnits, hok c0 (bodyOf f), execUnits_all_ok rest ex (c0 ++ [bodyOf f]) hok]
    simp

/-! ## Splitting a newline-joined concatenation -/

theorem splitLines_joinLines : ∀ (b : List Char) (bs : List (List Char)),
    splitLines (joinLines (b :: bs)) = (List.map splitLines (b :: bs)).flatten
  | b, [] => by simp [joinLines]
  | b, b2 :: bs => by
    rw [joinLines, splitLines_append, splitLines_joinLines b2 bs]
    simp

/-! ## The claims -/

/-- C1: for every ordered sequence of units, if the execution of some unit
fails (all units before position `i` succeed and unit `i` raises with
`cause`), the Engine records every unit before it as OK, records the
failing unit as FAILED together with its underlying cause, attempts no
unit after the failing one (the report ends at the failing unit and the
failure is surfaced to the caller with name and cause), and every unit
applied before the failing one remains committed: the database state is
exactly the previously committed scripts followed by the bodies of the
units before the failing one, with no rollback. -/
theorem c1_engine_fail_fast (files : List MigFile)
    (ex : List (List Char) → List Char → Option (List Char))
    (c0 : List (List Char)) (i : Nat) (hi : i < files.length) (cause : List Char)
    (hok : ∀ k, (hk : k < i) →
      ex (stateAt c0 files k) (bodyOf (files.get ⟨k, Nat.lt_trans hk hi⟩)) = none)
    (hfail : ex (stateAt c0 files i) (bodyOf (files.get ⟨i, hi⟩)) = some cause) :
    execUnits ex c0 files =
      ⟨(files.take i).map (fun f => ⟨f.name, Status.ok, none⟩) ++
         [⟨(files.get ⟨i, hi⟩).name, Status.failed, some cause⟩],
       stateAt c0 files i,
       some ((files.get ⟨i, hi⟩).name, cause)⟩ :=
  execUnits_fail files ex c0 i hi cause hok hfail

/-- Witness for C1: a concrete three-unit run whose second unit fails:
unit 1 is reported OK and stays committed, unit 2 is reported FAILED with
its cause, unit 3 never appears in the report. -/
theorem c1_engine_fail_fast_witness :
    execUnits (fun _ b => if b = "BAD".data then some "boom".data else none) []
      [⟨"001_a.sql".data, "A".data⟩, ⟨"002_b.sql".data, "BAD".data⟩,
       ⟨"003_c.sql".data, "C".data⟩] =
      ⟨[⟨"001_a.sql".data, Status.ok, none⟩,
        ⟨"002_b.sql".data, Status.failed, some "boom".data⟩],
       ["A".data], some ("002_b.sql".data, "boom".data)⟩ := by
  rw [c1_engine_fail_fast
    [⟨"001_a.sql".data, "A".data⟩, ⟨"002_b.sql".data, "BAD".data⟩,
     ⟨"003_c.sql".data, "C".data⟩]
    (fun _ b => if b = "BAD".data then some "boom".data else none)
    [] 1 (by decide) ("boom".data) (by decide) (by decide)]
  decide

/-- C2 counterexample: the discovery glob `???_*.sql` accepts any three
leading characters, so the directory containing only `abc_foo.sql` — a
name with no numeric three-digit sequence — yields exactly that file,
refuting the claim that every returned file has a numeric three-digit
prefix. -/
theorem c2_counterexample :
    "abc_foo.sql".data ∈ migration_files ["abc_foo.sql".data] ∧
    hasNumericSeq "abc_foo.sql".data = false := by decide

/-- C2 amended: the ScriptStore returns exactly the files whose name
matches the glob `???_*.sql` — any three characters, an underscore,
anything, and the literal `.sql`, with no requirement that the prefix be
numeric — excluding `COMBINED_ALL_MIGRATIONS.sql`, sorted in ordinal
lexicographic order; restricted to inputs in which every returned name
does carry a numeric three-digit prefix and those prefixes are pairwise
distinct, the parsed sequence values are strictly increasing (the
lexical sort agrees with numeric sort on the zero-padded prefixes). -/
theorem c2_scriptstore_amended (dir : List (List Char))
    (hdigits : ∀ f ∈ migration_files dir, hasNumericSeq f = true)
    (hdist : ((migration_files dir).map (fun f => f.take 3)).Nodup) :
    (∀ f, f ∈ migration_files dir ↔
      (f ∈ dir ∧ globMatch f = true ∧ f ≠ COMBINED_NAME)) ∧
    COMBINED_NAME ∉ migration_files dir ∧
    (migration_files dir).Pairwise (fun a b => seqOf a < seqOf b) := by
  have hmem : ∀ f, f ∈ migration_files dir ↔
      (f ∈ dir ∧ globMatch f = true ∧ f ≠ COMBINED_NAME) := by
    intro f
    rw [migration_files, mem_sortLex]
    simp only [List.mem_filter, decide_eq_true_eq]
    tauto
  refine ⟨hmem, ?_, ?_⟩
  · intro h
    exact ((hmem COMBINED_NAME).mp h).2.2 rfl
  · have hlex : (migration_files dir).Pairwise (fun a b => lexLe a b = true) :=
      pairwise_sortLex _
    have hnd : (migration_files dir).Pairwise (fun a b => a.take 3 ≠ b.take 3) := by
      rw [List.Nodup, List.pairwise_map] at hdist
      exact hdist
    refine List.Pairwise.imp_of_mem ?_ (hlex.and hnd)
    intro a b ha hb hab
    exact seq_lt_of_lexLe a b (hdigits a ha) (hdigits b hb) hab.1 hab.2

/-- Witness for C2 amended: a concrete directory with two numeric
migration files, the combined file, and an unrelated file. -/
theorem c2_scriptstore_amended_witness :
    (∀ f, f ∈ migration_files ["002_b.sql".data, "001_a.sql".data,
        "COMBINED_ALL_MIGRATIONS.sql".data, "README.md".data] ↔
      (f ∈ ["002_b.sql".data, "001_a.sql".data,
        "COMBINED_ALL_MIGRATIONS.sql".data, "README.md".data] ∧
        globMatch f = true ∧ f ≠ COMBINED_NAME)) ∧
    COMBINED_NAME ∉ migration_files ["002_b.sql".data, "001_a.sql".data,
        "COMBINED_ALL_MIGRATIONS.sql".data, "README.md".data] ∧
    (migration_files ["002_b.sql".data, "001_a.sql".data,
        "COMBINED_ALL_MIGRATIONS.sql".data, "README.md".data]).Pairwise
      (fun a b => seqOf a < seqOf b) :=
  c2_scriptstore_amended _ (by decide) (by decide)

/-- C3 counterexample: on a document with zero marker lines the Splitter
completes normally with zero units; it does not fail with
`EmptyInputError` — the source has no such error path at all. -/
theorem c3_counterexample :
    split_migrations "SELECT 1;\nSELECT 2;".data = .ok [] ∧
    split_migrations "SELECT 1;\nSELECT 2;".data ≠ .error .emptyInput := by decide

/-- C3 amended: for every input document containing zero marker lines the
Splitter completes normally (no error is raised) and produces zero
units. -/
theorem c3_empty_input_amended (content : List Char)
    (h : noMarkers (splitLines content)) :
    split_migrations content = .ok [] := by
  rw [split_migrations, migrationsOf, foldl_nonmarkers (splitLines content) initState h]
  rfl

/-- Witness for C3 amended: a concrete marker-free document. -/
theorem c3_empty_input_amended_witness :
    split_migrations "SELECT 1;".data = .ok [] :=
  c3_empty_input_amended "SELECT 1;".data (by decide)

/-- C4: last-write-wins on duplicate sequence numbers.  First conjunct:
for every input, the Splitter dictionary holds at most one unit per
zero-padded sequence key.  Second conjunct: for a document consisting of
a marker with sequence `s`, its following lines, a second marker with the
same sequence `s`, and its following lines (with arbitrary discarded
lines in front), the output is exactly one unit for `s`, whose name and
body come from the second occurrence — the second marker line plus its
following lines — with no error raised. -/
theorem c4_last_write_wins :
    (∀ lines : List (List Char), ((migrationsOf lines).map Prod.fst).Nodup) ∧
    (∀ (A B C : List (List Char)) (m1 m2 : List Char) (s : Nat)
      (nm1 nm2 : List Char), noMarkers A → noMarkers B → noMarkers C →
      parseMarker m1 = some (s, nm1) → parseMarker m2 = some (s, nm2) →
      migrationsOf (A ++ m1 :: (B ++ m2 :: C)) =
        [(migKey s, ⟨nm2, joinLines (m2 :: C)⟩)]) := by
  refine ⟨nodupKeys_migrationsOf, ?_⟩
  intro A B C m1 m2 s nm1 nm2 hA hB hC h1 h2
  rw [migrationsOf_discard A (m1 :: (B ++ m2 :: C)) hA]
  rw [migrationsOf, List.foldl_cons, stepLine_marker initState m1 (s, nm1) h1,
    List.foldl_append, foldl_nonmarkers B _ hB]
  rw [List.foldl_cons]
  rw [stepLine_marker _ m2 (s, nm2) h2, foldl_nonmarkers C _ hC]
  show insertAL (migKey s) ⟨nm2, joinLines ([m2] ++ C)⟩
      (insertAL (migKey s) ⟨nm1, joinLines ([m1] ++ B)⟩ []) =
    [(migKey s, ⟨nm2, joinLines (m2 :: C)⟩)]
  rw [insertAL, insertAL_same_key]
  rfl

/-- Witness for C4: two markers both carrying sequence 1 (written `001`
and `1`); the single output unit is the second occurrence. -/
theorem c4_last_write_wins_witness :
    ((migrationsOf ["-- Migration: 001_a.sql".data, "x".data,
      "-- Migration: 1_b.sql".data, "y".data]).map Prod.fst).Nodup ∧
    migrationsOf (["junk".data] ++ "-- Migration: 001_a.sql".data ::
        (["x".data] ++ "-- Migration: 1_b.sql".data :: ["y".data])) =
      [(migKey 1, ⟨"b".data, joinLines ("-- Migration: 1_b.sql".data :: ["y".data])⟩)] :=
  ⟨c4_last_write_wins.1 _,
   c4_last_write_wins.2 ["junk".data] ["x".data] ["y".data] _ _ 1 "a".data "b".data
     (by decide) (by decide) (by decide) (by decide) (by decide)⟩

/-- C5: first conjunct — every unit the Splitter emits for a document has
as its body a marker line followed, joined with newline, by every
subsequent line of the document up to (exclusive) the next marker line or
the end of input, the marker line included.  Second conjunct — every line
before the first marker is discarded: a marker-free prefix of the line
list has no effect on the output, so those lines appear in no unit. -/
theorem c5_body_is_segment :
    (∀ (content : List Char) (k : List Char) (e : MigEntry),
      (k, e) ∈ migrationsOf (splitLines content) → SegAt (splitLines content) k e) ∧
    (∀ (pre rest : List (List Char)), noMarkers pre →
      migrationsOf (pre ++ rest) = migrationsOf rest) :=
  ⟨fun content k e h => segAt_of_mem (splitLines content) k e h,
   fun pre rest h => migrationsOf_discard pre rest h⟩

/-- Witness for C5: the one unit of a concrete two-line document is a
segment of it, and a marker-free junk prefix changes nothing. -/
theorem c5_body_is_segment_witness :
    SegAt (splitLines "-- Migration: 001_a.sql\nX".data) ("001".data)
      ⟨"a".data, "-- Migration: 001_a.sql\nX".data⟩ ∧
    migrationsOf (["junk".data] ++ ["-- Migration: 001_a.sql".data]) =
      migrationsOf ["-- Migration: 001_a.sql".data] :=
  ⟨c5_body_is_segment.1 "-- Migration: 001_a.sql\nX".data "001".data
      ⟨"a".data, "-- Migration: 001_a.sql\nX".data⟩ (by decide),
   c5_body_is_segment.2 ["junk".data] ["-- Migration: 001_a.sql".data] (by decide)⟩

/-- C6: round-trip.  For every finite list of units with pairwise
distinct sequence numbers, each unit's body beginning with its own
marker line and containing no other marker line, splitting the document
formed by joining those bodies in order with newlines reproduces exactly
the same units — one dictionary entry per unit, in order, keyed by the
zero-padded sequence, carrying the same name and the exact body. -/
theorem c6_round_trip (units : List MigUnit)
    (hwf : ∀ u ∈ units, wfUnit u)
    (hdist : (units.map MigUnit.seq).Nodup) :
    split_migrations (joinLines (units.map MigUnit.body)) =
      .ok (units.map unitEntry) := by
  have hpw : List.Pairwise (fun a b => a.seq ≠ b.seq) units := by
    rw [List.Nodup, List.pairwise_map] at hdist
    exact hdist
  cases units with
  | nil =>
    rw [List.map_nil]
    show SplitOutcome.ok (migrationsOf (splitLines [])) = .ok []
    rw [show splitLines ([] : List Char) = [[]] from rfl]
    rw [migrationsOf, foldl_nonmarkers [[]] initState (by decide)]
    rfl
  | cons u rest =>
    rw [split_migrations, List.map_cons, splitLines_joinLines, ← List.map_cons]
    rw [show List.map splitLines (List.map MigUnit.body (u :: rest)) =
      List.map (fun v => splitLines v.body) (u :: rest) from by
        rw [List.map_map]; rfl]
    rw [migrationsOf]
    rw [migrationsOf_units (u :: rest) initState hwf
      (by
        intro v _
        show migKey v.seq ∉ List.map Prod.fst (finalize initState)
        simp [initState, finalize])
      hpw]
    rfl

/-- Witness for C6: two concrete well-formed units survive the
join-then-split round trip unchanged. -/
theorem c6_round_trip_witness :
    split_migrations (joinLines
      ["-- Migration: 001_a.sql\nCREATE TABLE t (x int);".data,
       "-- Migration: 002_b.sql\nSELECT 1;".data]) =
      .ok [(migKey 1, ⟨"a".data, "-- Migration: 001_a.sql\nCREATE TABLE t (x int);".data⟩),
           (migKey 2, ⟨"b".data, "-- Migration: 002_b.sql\nSELECT 1;".data⟩)] :=
  (c6_round_trip
    [⟨1, "a".data, "-- Migration: 001_a.sql\nCREATE TABLE t (x int);".data⟩,
     ⟨2, "b".data, "-- Migration: 002_b.sql\nSELECT 1;".data⟩]
    (by decide) (by decide)).trans (by decide)

/-- C7 counterexample: a run whose single unit fails opens the connection
but exits without closing it — in the source, `conn.close()` is only
reached after all units succeed and no `finally` block exists, so the
failure path leaves the connection open, refuting the claim that every
exit path closes it. -/
theorem c7_counterexample :
    (run_migrations none (fun _ _ => some "boom".data)
      [⟨"001_a.sql".data, "SELECT".data⟩]).connOpened = true ∧
    (run_migrations none (fun _ _ => some "boom".data)
      [⟨"001_a.sql".data, "SELECT".data⟩]).connClosed = false := by decide

/-- C7 amended: the connection is opened exactly when migration files
were found and the connection attempt succeeds, and it is explicitly
closed exactly on the full-success exit path; on a unit failure (or any
error after the connect) the code exits by `sys.exit` without closing
the connection, leaving it to process termination. -/
theorem c7_connection_close_amended (connectErr : Option (List Char))
    (ex : List (List Char) → List Char → Option (List Char))
    (files : List MigFile) :
    ((run_migrations connectErr ex files).connClosed = true ↔
      (connectErr = none ∧ files ≠ [] ∧ (execUnits ex [] files).failure = none)) ∧
    ((run_migrations connectErr ex files).connOpened = true ↔
      (connectErr = none ∧ files ≠ [])) := by
  by_cases hf : files = []
  · subst hf
    rw [run_migrations.eq_def, if_pos rfl]
    simp
  · rw [run_migrations.eq_def, if_neg hf]
    cases connectErr with
    | some e => simp
    | none =>
      dsimp only
      cases hfail : (execUnits ex [] files).failure with
      | none => simp [hf]
      | some p => simp [hf]

/-- C8 counterexample: a migration file whose contents contain a CRLF
line ending is executed with LF instead — the Engine opens files in
Python text mode, whose universal-newline translation rewrites CRLF to
LF, refuting byte-exactness. -/
theorem c8_counterexample :
    (execUnits (fun _ _ => none) []
      [⟨"001_a.sql".data, "a\r\nb".data⟩]).committed = ["a\nb".data] ∧
    "a\nb".data ≠ "a\r\nb".data := by decide

/-- C8 amended: the body passed to the database for each unit is the
file's contents after universal-newline translation (`pyRead`: CRLF and
lone CR become LF) and is otherwise untouched — in particular, for a
file whose contents contain no carriage return, the executed body equals
the contents exactly, with no trimming. -/
theorem c8_body_amended (ex : List (List Char) → List Char → Option (List Char))
    (files : List MigFile) (hok : ∀ c b, ex c b = none) :
    (execUnits ex [] files).committed = files.map (fun f => pyRead f.contents) ∧
    (∀ f ∈ files, (∀ ch ∈ f.contents, ch ≠ '\r') → bodyOf f = f.contents) := by
  constructor
  · rw [execUnits_all_ok files ex [] hok]
    rfl
  · intro f _ hcr
    exact pyRead_no_cr f.contents hcr

/-- Witness for C8 amended: a CR-free file is committed byte-exactly. -/
theorem c8_body_amended_witness :
    (execUnits (fun _ _ => none) []
      [⟨"001_a.sql".data, "SELECT 1;".data⟩]).committed =
      [⟨"001_a.sql".data, "SELECT 1;".data⟩].map
        (fun f : MigFile => pyRead f.contents) ∧
    (∀ f ∈ [(⟨"001_a.sql".data, "SELECT 1;".data⟩ : MigFile)],
      (∀ ch ∈ f.contents, ch ≠ '\r') → bodyOf f = f.contents) :=
  c8_body_amended (fun _ _ => none) [⟨"001_a.sql".data, "SELECT 1;".data⟩]
    (fun _ _ => rfl)

/-- C9 counterexample: the line `-- Migration: 001_init.sql -- note`
carries text after `.sql`, yet `re.match` accepts it — the Splitter
treats it as a marker and emits a unit for it, refuting the claim that
only lines exactly of the marker form, with nothing after the
extension, are markers. -/
theorem c9_counterexample :
    parseMarker "-- Migration: 001_init.sql -- note".data = some (1, "init".data) ∧
    migrationsOf ["-- Migration: 001_init.sql -- note".data] =
      [("001".data, ⟨"init".data, "-- Migration: 001_init.sql -- note".data⟩)] ∧
    "-- Migration: 001_init.sql -- note".data ≠
      "-- Migration: 001_init.sql".data := by decide

/-- C9 amended: the Splitter treats a line as a marker if and only if the
line BEGINS with `-- Migration: `, one or more digits, an underscore, a
nonempty name, and the literal extension `.sql` — arbitrary trailing
text after `.sql` is allowed (Python `re.match` anchors only at the
start of the line), and the extension is fixed to `.sql` rather than
arbitrary. -/
theorem c9_marker_amended (l : List Char) :
    (parseMarker l).isSome = true ↔
    ∃ ds nm r, l = markerLit ++ (ds ++ '_' :: (nm ++ (sqlLit ++ r))) ∧
      ds ≠ [] ∧ (∀ c ∈ ds, c.isDigit = true) ∧ nm ≠ [] :=
  parseMarker_isSome_iff l

/-- C10: every unit the Splitter emits is keyed by the marker's parsed
sequence number zero-padded to width 3, and named by the marker's name;
whenever the sequence is at most 999 the key — and therefore the numeric
prefix of the output filename `key_name.sql` — is exactly three digit
characters, independent of how many digits the marker itself used. -/
theorem c10_zero_padded_key (lines : List (List Char)) (k : List Char)
    (e : MigEntry) (hmem : (k, e) ∈ migrationsOf lines) :
    ∃ n mkr, mkr ∈ lines ∧ parseMarker mkr = some (n, e.name) ∧ k = migKey n ∧
      (n ≤ 999 → k.length = 3 ∧ (∀ c ∈ k, c.isDigit = true) ∧
        (outFilename k e).take 3 = k) := by
  obtain ⟨pre, mkr, mid, post, n, hP, hm, hk, hmid, hpost, hc⟩ :=
    segAt_of_mem lines k e hmem
  refine ⟨n, mkr, ?_, hm, hk, ?_⟩
  · rw [hP]
    simp
  · intro hn
    have hk3 : k.length = 3 := by
      rw [hk]
      exact migKey_length n hn
    refine ⟨hk3, ?_, ?_⟩
    · intro c hcm
      rw [hk] at hcm
      exact migKey_digits n c hcm
    · rw [outFilename, ← hk3, List.take_left]

/-- Witness for C10: the marker `-- Migration: 7_init.sql` (one digit)
is emitted under the key `007` — three digits. -/
theorem c10_zero_padded_key_witness :
    (("007".data, (⟨"init".data, "-- Migration: 7_init.sql\nSELECT 1;".data⟩ : MigEntry)) ∈
      migrationsOf ["-- Migration: 7_init.sql".data, "SELECT 1;".data]) ∧
    (∃ n mkr, mkr ∈ ["-- Migration: 7_init.sql".data, "SELECT 1;".data] ∧
      parseMarker mkr = some (n, "init".data) ∧ "007".data = migKey n ∧
      (n ≤ 999 → ("007".data).length = 3 ∧ (∀ c ∈ "007".data, c.isDigit = true) ∧
        (outFilename "007".data
          ⟨"init".data, "-- Migration: 7_init.sql\nSELECT 1;".data⟩).take 3 =
          "007".data)) :=
  ⟨by decide,
   c10_zero_padded_key ["-- Migration: 7_init.sql".data, "SELECT 1;".data]
     ("007".data) ⟨"init".data, "-- Migration: 7_init.sql\nSELECT 1;".data⟩
     (by decide)⟩
